import Mathlib

/-!
Verification of the incremental candlestick ingestion and interval-aggregation
core of the crypto_bot repository, as a shallow embedding in Lean 4.

Embedded source files:
* `services/binance_data_loader/src/data_download/binance_data_loader.py`
  (`BinanceDataLoader.get_klines` — the paginated fetch loop; the copy in
  `src/data_download/api_handler.py` is line-for-line the same loop),
* `services/fast_api/src/helper/interval.py`
  (`interval_to_minutes`, `search_suitable_interval`),
* `services/fast_api/src/db/postgres_operations.py`
  (`PostgresOperations.get_candlestick_data` — the aggregation query),
* `src/db/postgres_operations.py`
  (`copy_import_candlestick_data`, `get_last_close_time`),
* `services/binance_data_loader/load_binance_data.py`
  (`process_trading_pairs` — resume-point computation and the per-pair loop).

Machine integers are modelled as `Nat`/`Int` (Python integers are unbounded,
so no wrap-around is involved); fixed-precision decimal prices and volumes
are modelled as `Int` (the proved properties about them — min/max/first/last/
sum — do not depend on the scalar type); Python exceptions are modelled as
`Option`/`Except` error values.
-/

namespace CryptoBot

/-- One exchange candlestick as returned by the kline endpoint and stored by
the loader: open time and close time in epoch milliseconds, OHLCV payload and
trade count.  (`opn` stands for the `open` column, which is a Lean keyword.) -/
structure Kline where
  openTime : Nat
  closeTime : Nat
  opn : Int
  high : Int
  low : Int
  close : Int
  volume : Int
  number_of_trades : Nat
deriving Repr, DecidableEq

/-- Result of one `get_klines` run: the collected klines, the final value of
the `start_ts` cursor, and the number of API calls made (`idx`). -/
structure KlinesRun where
  output_data : List Kline
  final_start_ts : Nat
  calls : Nat
deriving Repr, DecidableEq

/-- The while-loop of `BinanceDataLoader.get_klines`
(`binance_data_loader.py`, lines 105-140).  `client` maps a requested
`startTime` to the page the exchange answers with; `timeframe` is the interval
width in milliseconds; `limit` is the page size (500 at the call site).
State threaded through the loop: `start_ts`, `symbol_existed`, `idx`,
`output_data`.  `none` models a Python exception (the `temp_data[-1]`
IndexError raised when `symbol_existed` is already true and a page comes back
empty) or an exhausted fuel bound; `some` is normal loop exit, which happens
exactly when a page holds fewer than `limit` entries.  The `time.sleep(1)`
after every third call is a no-op in this model. -/
def get_klines_loop (client : Nat → List Kline) (timeframe limit : Nat) :
    Nat → Nat → Bool → Nat → List Kline → Option KlinesRun
  | 0, _, _, _, _ => none
  | fuel + 1, start_ts, symbol_existed, idx, output_data =>
    let temp_data := client start_ts
    let symbol_existed := symbol_existed || !temp_data.isEmpty
    if symbol_existed then
      match temp_data.getLast? with
      | none => none
      | some last =>
        let output_data := output_data ++ temp_data
        let start_ts := last.openTime + timeframe
        if temp_data.length < limit then
          some ⟨output_data, start_ts, idx + 1⟩
        else
          get_klines_loop client timeframe limit fuel start_ts symbol_existed (idx + 1) output_data
    else
      let start_ts := start_ts + timeframe
      if temp_data.length < limit then
        some ⟨output_data, start_ts, idx + 1⟩
      else
        get_klines_loop client timeframe limit fuel start_ts symbol_existed (idx + 1) output_data

/-- `BinanceDataLoader.get_klines`: runs the loop from `start_ts` with
`output_data = []`, `limit = 500`, `symbol_existed = False`, `idx = 0`. -/
def get_klines (client : Nat → List Kline) (timeframe start_ts fuel : Nat) : Option KlinesRun :=
  get_klines_loop client timeframe 500 fuel start_ts false 0 []

/-- The Binance kline endpoint as the spec describes it (section 6): given a
start timestamp it answers with the first page (at most 500 entries) of the
symbol's klines whose open time is at or after the requested start, in
ascending order.  `upstream` is the symbol's full history. -/
def fetchSource (upstream : List Kline) (startTime : Nat) : List Kline :=
  (upstream.filter (fun k => decide (startTime ≤ k.openTime))).take 500

/-! ## Interval parsing and selection (`services/fast_api/src/helper/interval.py`) -/

/-- Numeric value of a list of ASCII digit characters, as Python `int` reads
the group captured by `\d+`. -/
def digitsVal (ds : List Char) : Nat :=
  ds.foldl (fun n c => 10 * n + (c.toNat - 48)) 0

/-- `interval_to_minutes` (`interval.py`, lines 30-53).  The regex
`re.match(r"(\d+)([mhdw])", interval.lower())` anchors at the start only:
it needs one or more digits followed by one unit character and ignores any
trailing characters.  `none` models the raised `ValueError`.  (`\d` is
modelled as ASCII digits.) -/
def interval_to_minutes (interval : String) : Option Nat :=
  let cs := interval.data.map Char.toLower
  let ds := cs.takeWhile Char.isDigit
  if ds.isEmpty then none
  else
    match cs.dropWhile Char.isDigit with
    | [] => none
    | u :: _ =>
      let value := digitsVal ds
      if u = 'm' then some value
      else if u = 'h' then some (value * 60)
      else if u = 'd' then some (value * 60 * 24)
      else if u = 'w' then some (value * 60 * 24 * 7)
      else none

/-- The two `ValueError` conditions of `interval.py`: a malformed interval
string, or no available interval at or below the target. -/
inductive IntervalError where
  | invalidInterval
  | noSuitableInterval
deriving Repr, DecidableEq

/-- Sort key used by `search_suitable_interval`; only applied to strings the
function has already parsed successfully, so the default is never observable. -/
def minutes_key (iv : String) : Nat :=
  (interval_to_minutes iv).getD 0

instance : DecidableRel (fun a b : String => minutes_key a ≤ minutes_key b) :=
  fun a b => Nat.decLe _ _

instance : IsTotal String (fun a b : String => minutes_key a ≤ minutes_key b) :=
  ⟨fun a b => Nat.le_total _ _⟩

instance : IsTrans String (fun a b : String => minutes_key a ≤ minutes_key b) :=
  ⟨fun _ _ _ => Nat.le_trans⟩

/-- `search_suitable_interval` (`interval.py`, lines 56-87): sort the
available intervals by their minute value (Python's stable `sorted`, modelled
by insertion sort on the same key), walk them smallest to largest updating
`chosen` whenever the minute value is at or below the target's, and fail when
`chosen` is still `None`.  A `ValueError` raised by `interval_to_minutes` on
any of the inputs is `invalidInterval`. -/
def search_suitable_interval (available_intervals : List String) (target_interval : String) :
    Except IntervalError String :=
  if (available_intervals.all (fun iv => (interval_to_minutes iv).isSome)) = false then
    Except.error IntervalError.invalidInterval
  else
    let available_intervals_sorted :=
      List.insertionSort (fun a b => minutes_key a ≤ minutes_key b) available_intervals
    match interval_to_minutes target_interval with
    | none => Except.error IntervalError.invalidInterval
    | some target_minutes =>
      match available_intervals_sorted.foldl
          (fun chosen iv => if minutes_key iv ≤ target_minutes then some iv else chosen) none with
      | none => Except.error IntervalError.noSuitableInterval
      | some c => Except.ok c

/-! ## Aggregation (`services/fast_api/src/db/postgres_operations.py`, lines 60-107) -/

/-- Modelled from the spec: the repository delegates bucketing to TimescaleDB's
`time_bucket(interval, timestamp)`, whose implementation is not part of the
repository; the spec pins its alignment rule to
`bucket boundary = floor(open_time / target_width_ms) * target_width_ms`,
an origin-aligned rule independent of the first bar's timestamp. -/
def time_bucket (width ts : Nat) : Nat :=
  width * (ts / width)

/-- One row of the aggregation query's inner SELECT: the bucket start (surfaced
as `open_time` in the JSON) and the rolled-up OHLCV fields. -/
structure AggBar where
  open_time : Nat
  opn : Int
  high : Int
  low : Int
  close : Int
  volume : Int
  number_of_trades : Nat
deriving Repr, DecidableEq

/-- The bars of the chosen interval that fall into the bucket starting at `t`
(the `GROUP BY bucket_time` grouping). -/
def rows_in_bucket (width t : Nat) (bars : List Kline) : List Kline :=
  bars.filter (fun b => decide (time_bucket width b.openTime = t))

/-- The distinct bucket starts, ascending (`GROUP BY` + `ORDER BY bucket_time`). -/
def bucket_starts (width : Nat) (bars : List Kline) : List Nat :=
  List.insertionSort (fun a b : Nat => a ≤ b)
    ((bars.map (fun b => time_bucket width b.openTime)).dedup)

/-- `FIRST(x, timestamp)`: the row with the smallest timestamp (timestamp is
the datetime form of `open_time`); on a tie the earlier row is kept. -/
def first_row (r : Kline) (rs : List Kline) : Kline :=
  rs.foldl (fun acc b => if b.openTime < acc.openTime then b else acc) r

/-- `LAST(x, timestamp)`: the row with the largest timestamp; on a tie the
later row is kept. -/
def last_row (r : Kline) (rs : List Kline) : Kline :=
  rs.foldl (fun acc b => if acc.openTime ≤ b.openTime then b else acc) r

/-- Roll-up of one non-empty bucket, mirroring the aggregate list of the query:
`MIN(low), MAX(high), FIRST(open, timestamp), LAST(close, timestamp),
SUM(volume), SUM(number_of_trades)`. -/
def aggregate_bucket (t : Nat) (r : Kline) (rs : List Kline) : AggBar where
  open_time := t
  opn := (first_row r rs).opn
  high := rs.foldl (fun acc b => max acc b.high) r.high
  low := rs.foldl (fun acc b => min acc b.low) r.low
  close := (last_row r rs).close
  volume := rs.foldl (fun acc b => acc + b.volume) r.volume
  number_of_trades := rs.foldl (fun acc b => acc + b.number_of_trades) r.number_of_trades

/-- The result set of `PostgresOperations.get_candlestick_data` for a given
target bucket `width` (in ms) over the stored bars of the chosen interval:
one rolled-up row per non-empty bucket, ordered by bucket start ascending.
Buckets with no contributing bars never occur in `bucket_starts`, so no row is
emitted for them. -/
def get_candlestick_data (width : Nat) (bars : List Kline) : List AggBar :=
  (bucket_starts width bars).filterMap (fun t =>
    match rows_in_bucket width t bars with
    | [] => none
    | r :: rs => some (aggregate_bucket t r rs))

/-! ## Bar store (`src/db/postgres_operations.py`) and the ingestion driver
(`services/binance_data_loader/load_binance_data.py`) -/

/-- One row of the `candlesticks` table: the trading pair it belongs to plus
the bar payload (the loader's DataFrame column `trading_pair_id` prepended to
the kline columns). -/
structure CandleRow where
  trading_pair_id : Nat
  bar : Kline
deriving Repr, DecidableEq

/-- Modelled from the spec: the repository's DDL for `candlesticks` is not in
the source tree; section 6 of the spec declares the table
`unique on (trading_pair_id, open_time)`.  `key_conflict table r` holds when
inserting `r` would violate that unique constraint. -/
def key_conflict (table : List CandleRow) (r : CandleRow) : Bool :=
  table.any (fun x =>
    x.trading_pair_id == r.trading_pair_id && x.bar.openTime == r.bar.openTime)

/-- Modelled from the spec: PostgreSQL `COPY table FROM STDIN` (the statement
issued by `copy_import_candlestick_data`) appends the rows one after another
and raises on the first row that violates the unique constraint; it has no
per-row conflict handling. -/
def copy_rows : List CandleRow → List CandleRow → Except Unit (List CandleRow)
  | table, [] => Except.ok table
  | table, r :: rs =>
    if key_conflict table r then Except.error ()
    else copy_rows (table ++ [r]) rs

/-- `PostgresOperations.copy_import_candlestick_data`
(`src/db/postgres_operations.py`, lines 14-45): `COPY` the batch inside a
try-block and commit; on any exception log it, roll the transaction back and
return normally.  The returned flag records whether the commit happened; no
exception ever escapes the function. -/
def copy_import_candlestick_data (table df_klines : List CandleRow) :
    List CandleRow × Bool :=
  match copy_rows table df_klines with
  | Except.ok t => (t, true)
  | Except.error _ => (table, false)

/-- Follows the spec's words for claim C2, for comparison with the code's
`copy_import_candlestick_data`: "on conflict (duplicate open_time) the
existing row wins (insert is a no-op for that row)" — a per-row conflict-skip
insert that never fails. -/
def bulkAppend_spec (table batch : List CandleRow) : List CandleRow :=
  batch.foldl (fun t r => if key_conflict t r then t else t ++ [r]) table

/-- `PostgresOperations.get_last_close_time` (lines 158-191):
`SELECT MAX(close_time) ... WHERE trading_pair_id = %s`, then
`if result and result[0]: return result[0] else: return None`.  `MAX` over no
rows yields SQL `NULL` (Python `None`), and — by Python truthiness — a stored
maximum of `0` is also reported as `None`. -/
def get_last_close_time (closes : List Nat) : Option Nat :=
  if closes.isEmpty then none
  else
    let m := closes.foldr max 0
    if m = 0 then none else some m

/-- The resume-point computation of `process_trading_pairs` (lines 122-127):
`start_ts = last_close_time + 1` when `get_last_close_time` reports a value
(`if last_close_time:` — truthiness again), else the configured start date
converted to epoch ms (`date_to_milliseconds(start_date)`, an external
helper whose result is taken as the input `initial_ms`). -/
def resume_point (closes : List Nat) (initial_ms : Nat) : Nat :=
  match get_last_close_time closes with
  | some last_close_time => last_close_time + 1
  | none => initial_ms

/-- The stored `close_time` values of one trading pair, as seen by
`get_last_close_time`'s `WHERE trading_pair_id = %s` filter. -/
def pair_closes (table : List CandleRow) (tpid : Nat) : List Nat :=
  (table.filter (fun r => r.trading_pair_id == tpid)).map (fun r => r.bar.closeTime)

/-- Configuration and collaborators for one entry of `trading_pairs.yml` as
`process_trading_pairs` consumes it: the pair's id (the result of
`get_or_create_trading_pair`), the symbol's upstream history at the exchange,
the interval width in ms, the configured start date in epoch ms, the Binance
system-status flag, and the fuel bound for the fetch loop. -/
structure PairConfig where
  tpid : Nat
  upstream : List Kline
  w : Nat
  initial_ms : Nat
  status_ok : Bool
  fuel : Nat

/-- The batch of rows one iteration of `process_trading_pairs` would hand to
`copy_import_candlestick_data`: resume point from the stored close times, one
`get_klines` run against the exchange from there, `trading_pair_id` column
prepended.  `none` models an exception out of `get_klines` (caught by the
iteration's `except` clause). -/
def pair_batch (cfg : PairConfig) (table : List CandleRow) : Option (List CandleRow) :=
  let start_ts := resume_point (pair_closes table cfg.tpid) cfg.initial_ms
  match get_klines (fetchSource cfg.upstream) cfg.w start_ts cfg.fuel with
  | none => none
  | some run => some (run.output_data.map (fun k => ⟨cfg.tpid, k⟩))

/-- One iteration of the `for pair in pairs` loop of `process_trading_pairs`
(lines 107-144), returning the state of the `candlesticks` table afterwards:
skip when Binance reports unavailable; fetch the batch (an exception lands in
the `except` clause, leaving the table untouched); skip the write when the
DataFrame is empty; otherwise bulk-load via `copy_import_candlestick_data`
(which rolls back internally on failure). -/
def process_one (cfg : PairConfig) (table : List CandleRow) : List CandleRow :=
  if cfg.status_ok = false then table
  else
    match pair_batch cfg table with
    | none => table
    | some b => if b.isEmpty then table else (copy_import_candlestick_data table b).1

/-- Whether the iteration reaches the success log line
`"Data for '%s' ... has been successfully processed."` (line 139): it does
whenever a non-empty batch was fetched, because `copy_import_candlestick_data`
returns normally even when the write failed. -/
def process_one_logs_success (cfg : PairConfig) (table : List CandleRow) : Bool :=
  if cfg.status_ok = false then false
  else
    match pair_batch cfg table with
    | none => false
    | some b => !b.isEmpty

/-- `process_trading_pairs`: the pairs are processed in order, each inside its
own try/except, so the loop always continues with the next pair. -/
def process_trading_pairs (pairs : List PairConfig) (table : List CandleRow) : List CandleRow :=
  pairs.foldl (fun t cfg => process_one cfg t) table

/-! ## Characterisation predicate and concrete instances used by the claims -/

/-- The spec's characterisation of a well-formed interval string (claim C8):
a leading decimal integer followed by a unit drawn from m, h, d, w
(matching is case-insensitive and, like the `re.match` in the source, ignores
anything after the unit character). -/
def valid_interval_shape (s : String) : Bool :=
  let cs := s.data.map Char.toLower
  !(cs.takeWhile Char.isDigit).isEmpty &&
    (match cs.dropWhile Char.isDigit with
     | u :: _ => u == 'm' || u == 'h' || u == 'd' || u == 'w'
     | [] => false)

/-- The bar a listing-probe source first answers with (claim C1): a 1m kline
whose open time is three interval widths past the requested start. -/
def c1_page_bar : Kline := ⟨181000, 240999, 1, 2, 1, 2, 3, 7⟩

/-- A source that returns empty pages at the first three probe timestamps
1000, 61000, 121000 and a non-empty page at the fourth, 181000 (claim C1). -/
def c1_client : Nat → List Kline :=
  fun start_ts => if start_ts = 181000 then [c1_page_bar] else []

/-- Five consecutive 1-minute bars with closes 10, 11, 9, 12, 10 and unit
volumes — the aggregation example of the spec (claim C3). -/
def ex_bar1 : Kline := ⟨0, 59999, 10, 10, 10, 10, 1, 3⟩

def ex_bar2 : Kline := ⟨60000, 119999, 10, 11, 10, 11, 1, 4⟩

def ex_bar3 : Kline := ⟨120000, 179999, 11, 11, 9, 9, 1, 5⟩

def ex_bar4 : Kline := ⟨180000, 239999, 9, 12, 9, 12, 1, 6⟩

def ex_bar5 : Kline := ⟨240000, 299999, 12, 12, 10, 10, 1, 7⟩

/-- A bar that does not sit on a 5-minute boundary, to exhibit the
origin-aligned bucket rule (claim C3). -/
def ex_late_bar : Kline := ⟨420000, 479999, 2, 3, 1, 2, 4, 8⟩

/-- A stored candlestick row (claim C2). -/
def row_a : CandleRow := ⟨1, ex_bar1⟩

/-- A row not yet stored, same pair, later open time (claim C2). -/
def row_b : CandleRow := ⟨1, ex_bar2⟩

/-- Two consecutive upstream 1m klines for the ingestion claims. -/
def up_bar1 : Kline := ⟨60000, 119999, 5, 6, 4, 5, 2, 9⟩

def up_bar2 : Kline := ⟨120000, 179999, 5, 7, 5, 6, 2, 11⟩

/-- A concrete per-pair configuration: pair 1, two 1m upstream bars, start
date 1000 ms, Binance available, ample fuel. -/
def cfg1 : PairConfig := ⟨1, [up_bar1, up_bar2], 60000, 1000, true, 10⟩

/-- A stored row holding the same `(trading_pair_id, open_time)` key as
`up_bar1` (its other fields differ), used to trigger a duplicate-key write
failure (claims C9, C10). -/
def stale_row : CandleRow := ⟨1, ⟨60000, 0, 0, 0, 0, 0, 0, 0⟩⟩

/-- Two strictly ascending bars for the append-mode witness (claim C7). -/
def c7_bar1 : Kline := ⟨100, 159, 1, 1, 1, 1, 1, 1⟩

def c7_bar2 : Kline := ⟨160, 219, 1, 1, 1, 1, 1, 1⟩

/-- A source whose every page is ascending and starts no earlier than the
requested timestamp (claim C7). -/
def c7_client : Nat → List Kline :=
  fun start_ts => if start_ts ≤ 100 then [c7_bar1, c7_bar2] else []

/-! ## Helper lemmas -/

theorem le_foldr_max {x : Nat} : ∀ {l : List Nat}, x ∈ l → x ≤ l.foldr max 0 := by
  intro l
  induction l with
  | nil => intro h; cases h
  | cons a l ih =>
    intro h
    rcases List.mem_cons.mp h with rfl | h'
    · exact le_max_left _ _
    · exact le_trans (ih h') (le_max_right _ _)

theorem foldr_max_le {m : Nat} : ∀ {l : List Nat}, (∀ x ∈ l, x ≤ m) → l.foldr max 0 ≤ m := by
  intro l
  induction l with
  | nil => intro _; exact Nat.zero_le m
  | cons a l ih =>
    intro h
    exact max_le (h a (List.mem_cons_self a l)) (ih fun x hx => h x (List.mem_cons_of_mem _ hx))

theorem key_conflict_append (t1 t2 : List CandleRow) (r : CandleRow) :
    key_conflict (t1 ++ t2) r = (key_conflict t1 r || key_conflict t2 r) := by
  simp [key_conflict, List.any_append]

theorem copy_rows_ok_eq :
    ∀ (batch table t : List CandleRow), copy_rows table batch = Except.ok t → t = table ++ batch := by
  intro batch
  induction batch with
  | nil =>
    intro table t h
    simp only [copy_rows] at h
    cases h
    simp
  | cons r rs ih =>
    intro table t h
    simp only [copy_rows] at h
    by_cases hc : key_conflict table r = true
    · rw [if_pos hc] at h; cases h
    · rw [if_neg hc] at h
      have := ih _ _ h
      simpa using this

theorem copy_rows_error_of_conflict :
    ∀ (batch table : List CandleRow), (∃ r ∈ batch, key_conflict table r = true) →
      copy_rows table batch = Except.error () := by
  intro batch
  induction batch with
  | nil => rintro table ⟨r, hr, -⟩; cases hr
  | cons a rs ih =>
    rintro table ⟨r, hr, hc⟩
    simp only [copy_rows]
    rcases List.mem_cons.mp hr with rfl | hr'
    · rw [if_pos hc]
    · by_cases hca : key_conflict table a = true
      · rw [if_pos hca]
      · rw [if_neg hca]
        refine ih _ ⟨r, hr', ?_⟩
        rw [key_conflict_append, hc, Bool.true_or]

theorem copy_rows_ok_of_no_conflict :
    ∀ (batch table : List CandleRow),
      (∀ r ∈ batch, key_conflict table r = false) →
      batch.Pairwise (fun r s =>
        ¬(r.trading_pair_id = s.trading_pair_id ∧ r.bar.openTime = s.bar.openTime)) →
      copy_rows table batch = Except.ok (table ++ batch) := by
  intro batch
  induction batch with
  | nil => intro table _ _; simp [copy_rows]
  | cons a rs ih =>
    intro table hno hpw
    simp only [copy_rows]
    rw [if_neg (by simp [hno a (List.mem_cons_self a rs)])]
    rw [List.pairwise_cons] at hpw
    have hstep : ∀ r ∈ rs, key_conflict (table ++ [a]) r = false := by
      intro r hr
      rw [key_conflict_append, hno r (List.mem_cons_of_mem _ hr), Bool.false_or]
      simp only [key_conflict, List.any_cons, List.any_nil, Bool.or_false]
      rcases Bool.eq_false_or_eq_true
          (a.trading_pair_id == r.trading_pair_id && a.bar.openTime == r.bar.openTime) with hT | hF
      · exfalso
        rw [Bool.and_eq_true, beq_iff_eq, beq_iff_eq] at hT
        exact hpw.1 r hr hT
      · exact hF
    rw [ih _ hstep hpw.2]
    simp

theorem process_one_of_conflict {cfg : PairConfig} {table b : List CandleRow}
    (hb : pair_batch cfg table = some b) (hc : ∃ r ∈ b, key_conflict table r = true) :
    process_one cfg table = table := by
  unfold process_one
  by_cases hst : cfg.status_ok = false
  · rw [if_pos hst]
  · rw [if_neg hst, hb]
    have hbne : b.isEmpty = false := by
      rcases hc with ⟨r, hr, -⟩
      cases b with
      | nil => cases hr
      | cons x xs => rfl
    show (if b.isEmpty = true then table else (copy_import_candlestick_data table b).1) = table
    rw [hbne, if_neg (fun h => Bool.noConfusion h)]
    unfold copy_import_candlestick_data
    rw [copy_rows_error_of_conflict _ _ hc]

/-! ## Claim theorems -/

/-- C1 (code_bug): the spec says the adapter keeps probing forward, one
interval width per empty page, until the first non-empty page arrives — and
so does the function's own docstring ("the timestamp is automatically
incremented until valid data is retrieved").  The loop, however, breaks as
soon as a page holds fewer than `limit` entries, which an empty probe page
always does: against a source that is empty at the first three probe
timestamps and non-empty at the fourth, `get_klines` makes exactly one call,
advances the cursor exactly once (1000 → 61000) and returns no data at all,
never reaching the non-empty page at 181000. -/
theorem c1_listing_probe_code_bug :
    get_klines c1_client 60000 1000 10 = some ⟨[], 61000, 1⟩ ∧
    c1_client 181000 = [c1_page_bar] := by
  exact ⟨rfl, rfl⟩

/-- C2 (counterexample): with `row_a` already stored, bulk-appending the batch
`[row_a, row_b]` (a duplicate plus a genuinely new bar) is claimed to skip the
duplicate and keep the rest; the code instead fails the whole `COPY`, rolls
back, and stores nothing — `row_b` is lost, unlike under the spec's per-row
conflict-skip semantics `bulkAppend_spec`. -/
theorem c2_conflict_noop_counterexample :
    copy_import_candlestick_data [row_a] [row_a, row_b] = ([row_a], false) ∧
    bulkAppend_spec [row_a] [row_a, row_b] = [row_a, row_b] ∧
    ([row_a] : List CandleRow) ≠ [row_a, row_b] := by
  refine ⟨rfl, rfl, ?_⟩
  decide

/-- C2 (amended): a batch containing any bar whose `(trading_pair_id,
open_time)` key already exists makes the entire `COPY` fail; the exception is
caught, the whole batch is rolled back and nothing is inserted, and no error
propagates to the caller.  Replaying a batch all of whose bars are already
stored therefore leaves the stored rows unchanged, but bars of the batch that
were new are not inserted either. -/
theorem c2_conflict_batch_rollback :
    ∀ (table batch : List CandleRow), (∃ r ∈ batch, key_conflict table r = true) →
      copy_import_candlestick_data table batch = (table, false) := by
  intro table batch h
  unfold copy_import_candlestick_data
  rw [copy_rows_error_of_conflict _ _ h]

/-- C2 (witness for the amended claim): replaying the exact already-stored
batch `[row_a]` rolls back and leaves the store unchanged. -/
theorem c2_conflict_batch_rollback_witness :
    copy_import_candlestick_data [row_a] [row_a] = ([row_a], false) :=
  c2_conflict_batch_rollback [row_a] [row_a] ⟨row_a, by decide, by decide⟩

/-- C5 (counterexample): with one bar stored whose `close_time` is 0, the
claim says the resume point is `0 + 1`; the code reports the pair as having
no data (`if result and result[0]` — Python truthiness) and resumes from the
configured initial start date instead. -/
theorem c5_resume_point_counterexample :
    resume_point [0] 999 = 999 ∧ (0 : Nat) + 1 ≠ 999 := by
  exact ⟨rfl, by decide⟩

/-- C5 (amended): for every pair, the resume point equals the stored maximum
`close_time` plus 1 ms when at least one bar is stored and that maximum is
nonzero (a stored maximum of 0 is treated as absent by truthiness), and
equals the configured initial start date in epoch ms when no bar is stored. -/
theorem c5_resume_point :
    (∀ (closes : List Nat) (initial_ms m : Nat), m ∈ closes → (∀ x ∈ closes, x ≤ m) →
        m ≠ 0 → resume_point closes initial_ms = m + 1) ∧
    (∀ initial_ms : Nat, resume_point [] initial_ms = initial_ms) := by
  constructor
  · intro closes initial_ms m hm hub hm0
    have hmax : closes.foldr max 0 = m :=
      le_antisymm (foldr_max_le hub) (le_foldr_max hm)
    have hne : closes.isEmpty = false := by
      cases closes with
      | nil => cases hm
      | cons x xs => rfl
    unfold resume_point get_last_close_time
    rw [hne]
    simp only [Bool.false_eq_true, if_false, hmax, if_neg hm0]
  · intro initial_ms; rfl

/-- C5 (witness): two stored bars with close times 59999 and 119999 resume at
120000. -/
theorem c5_resume_point_witness :
    resume_point [59999, 119999] 1000 = 119999 + 1 :=
  c5_resume_point.1 [59999, 119999] 1000 119999 (by decide) (by decide) (by decide)

/-- C9: every bulk write is all-or-nothing — `copy_import_candlestick_data`
either commits the whole batch or rolls back to exactly the prior table state
— and a pair whose write fails on a duplicate key leaves the table unchanged
while the batch job goes on to process the remaining configured pairs exactly
as it would have from that table state. -/
theorem c9_rollback_isolation :
    (∀ table batch : List CandleRow,
        copy_import_candlestick_data table batch = (table ++ batch, true) ∨
        copy_import_candlestick_data table batch = (table, false)) ∧
    (∀ (cfg : PairConfig) (rest : List PairConfig) (table b : List CandleRow),
        pair_batch cfg table = some b → (∃ r ∈ b, key_conflict table r = true) →
        process_trading_pairs (cfg :: rest) table = process_trading_pairs rest table) := by
  constructor
  · intro table batch
    unfold copy_import_candlestick_data
    cases h : copy_rows table batch with
    | ok t => left; rw [copy_rows_ok_eq _ _ _ h]
    | error e => right; rfl
  · intro cfg rest table b hb hc
    show List.foldl _ (process_one cfg table) rest = _
    rw [process_one_of_conflict hb hc]
    rfl

/-- C9 (witness): pair 1's fetched bar collides with the stored `stale_row`,
the write rolls back, and the (empty) remainder of the job proceeds from the
unchanged table. -/
theorem c9_rollback_isolation_witness :
    process_trading_pairs [cfg1] [stale_row] = process_trading_pairs [] [stale_row] :=
  c9_rollback_isolation.2 cfg1 [] [stale_row] [⟨1, up_bar1⟩, ⟨1, up_bar2⟩] (by rfl)
    ⟨⟨1, up_bar1⟩, by decide, by decide⟩

/-- C10: `copy_import_candlestick_data` catches every write failure
internally — when the `COPY` raises, it rolls back and returns normally with
the table unchanged — and consequently `process_trading_pairs` still reaches
its success-logging line for that pair in the same run whenever a non-empty
batch was fetched, whether or not the write succeeded. -/
theorem c10_copy_import_no_raise :
    (∀ table batch : List CandleRow, copy_rows table batch = Except.error () →
        copy_import_candlestick_data table batch = (table, false)) ∧
    (∀ (cfg : PairConfig) (table b : List CandleRow),
        pair_batch cfg table = some b → b.isEmpty = false → cfg.status_ok = true →
        process_one_logs_success cfg table = true) := by
  constructor
  · intro table batch h
    unfold copy_import_candlestick_data
    rw [h]
  · intro cfg table b hb hbne hst
    unfold process_one_logs_success
    rw [if_neg (by rw [hst]; exact fun h => Bool.noConfusion h), hb]
    show (!b.isEmpty) = true
    rw [hbne]
    rfl

/-- C10 (witness): the duplicate-key write against `stale_row` returns
normally with the table unchanged, and with an empty store the same pair
fetches a non-empty batch and reaches the success log. -/
theorem c10_copy_import_no_raise_witness :
    copy_import_candlestick_data [stale_row] [⟨1, up_bar1⟩] = ([stale_row], false) ∧
    process_one_logs_success cfg1 [] = true := by
  constructor
  · exact c10_copy_import_no_raise.1 [stale_row] [⟨1, up_bar1⟩] (by rfl)
  · exact c10_copy_import_no_raise.2 cfg1 [] [⟨1, up_bar1⟩, ⟨1, up_bar2⟩] (by rfl) (by rfl) (by rfl)

/-- C8: `interval_to_minutes` raises (returns `none`) exactly for strings
without a leading decimal integer or whose character after the digits is not a
unit in m, h, d, w; in particular "5x" and "m5" raise, while "0m" is accepted
literally as 0 minutes. -/
theorem c8_invalid_interval :
    (∀ s : String, interval_to_minutes s = none ↔ valid_interval_shape s = false) ∧
    interval_to_minutes ("5x") = none ∧
    interval_to_minutes ("m5") = none ∧
    interval_to_minutes ("0m") = some 0 := by
  refine ⟨fun s => ?_, rfl, rfl, rfl⟩
  unfold interval_to_minutes valid_interval_shape
  by_cases hd : ((s.data.map Char.toLower).takeWhile Char.isDigit).isEmpty
  · simp [hd]
  · simp only [hd, if_false, Bool.not_false, Bool.true_and, Bool.false_eq_true]
    cases hrest : (s.data.map Char.toLower).dropWhile Char.isDigit with
    | nil => simp
    | cons u rest =>
      by_cases h1 : u = 'm'
      · simp [h1]
      · by_cases h2 : u = 'h'
        · simp [h1, h2]
        · by_cases h3 : u = 'd'
          · simp [h1, h2, h3]
          · by_cases h4 : u = 'w'
            · simp [h1, h2, h3, h4]
            · simp [h1, h2, h3, h4]

/-- C8 (witness): the general characterisation applied at the string "5x". -/
theorem c8_invalid_interval_witness :
    interval_to_minutes ("5x") = none ↔ valid_interval_shape ("5x") = false :=
  c8_invalid_interval.1 ("5x")

theorem foldl_choose_mem {α : Type} (key : α → Nat) (t : Nat) :
    ∀ (l : List α) (acc : Option α) (c : α),
      l.foldl (fun chosen iv => if key iv ≤ t then some iv else chosen) acc = some c →
      (c ∈ l ∧ key c ≤ t) ∨ acc = some c := by
  intro l
  induction l with
  | nil => intro acc c h; exact Or.inr h
  | cons a l ih =>
    intro acc c h
    rcases ih _ _ h with ⟨hm, hk⟩ | hacc
    · exact Or.inl ⟨List.mem_cons_of_mem _ hm, hk⟩
    · have hacc' : (if key a ≤ t then some a else acc) = some c := hacc
      by_cases ha : key a ≤ t
      · rw [if_pos ha] at hacc'
        cases hacc'
        exact Or.inl ⟨List.mem_cons_self _ _, ha⟩
      · rw [if_neg ha] at hacc'
        exact Or.inr hacc'

theorem foldl_choose_none {α : Type} (key : α → Nat) (t : Nat) :
    ∀ (l : List α) (acc : Option α),
      l.foldl (fun chosen iv => if key iv ≤ t then some iv else chosen) acc = none ↔
      (acc = none ∧ ∀ iv ∈ l, ¬ key iv ≤ t) := by
  intro l
  induction l with
  | nil => intro acc; simp
  | cons a l ih =>
    intro acc
    rw [List.foldl_cons, ih]
    constructor
    · rintro ⟨hstep, hall⟩
      have hstep' : (if key a ≤ t then some a else acc) = none := hstep
      by_cases ha : key a ≤ t
      · rw [if_pos ha] at hstep'; cases hstep'
      · rw [if_neg ha] at hstep'
        refine ⟨hstep', fun iv hiv => ?_⟩
        rcases List.mem_cons.mp hiv with rfl | hiv'
        · exact ha
        · exact hall iv hiv'
    · rintro ⟨hacc, hall⟩
      have ha : ¬ key a ≤ t := hall a (List.mem_cons_self _ _)
      refine ⟨?_, fun iv hiv => hall iv (List.mem_cons_of_mem _ hiv)⟩
      show (if key a ≤ t then some a else acc) = none
      rw [if_neg ha]
      exact hacc

theorem foldl_choose_max {α : Type} (key : α → Nat) (t : Nat) :
    ∀ (l : List α), l.Pairwise (fun a b => key a ≤ key b) →
      ∀ (acc : Option α) (c : α),
        l.foldl (fun chosen iv => if key iv ≤ t then some iv else chosen) acc = some c →
        ∀ iv ∈ l, key iv ≤ t → key iv ≤ key c := by
  intro l
  induction l with
  | nil => intro _ acc c _ iv hiv; cases hiv
  | cons a l ih =>
    intro hpw acc c h iv hiv hivt
    rw [List.pairwise_cons] at hpw
    rcases List.mem_cons.mp hiv with rfl | hiv'
    · rcases foldl_choose_mem key t l _ c h with ⟨hm, -⟩ | hacc
      · exact hpw.1 c hm
      · have hacc' : (if key iv ≤ t then some iv else acc) = some c := hacc
        rw [if_pos hivt] at hacc'
        cases hacc'
        exact le_refl _
    · exact ih hpw.2 _ c h iv hiv' hivt

/-- C4: for every non-empty list of well-formed available intervals and
well-formed target, `search_suitable_interval` returns an available interval
whose minute width is the largest that is still at most the target's width,
and reports `noSuitableInterval` exactly when every available interval is
wider than the target; in particular available 1m, 5m, 1h with target 15m
yields 5m, and available 5m, 1h with target 1m errors. -/
theorem c4_interval_selection :
    (∀ (avail : List String) (target : String) (tm : Nat),
        avail ≠ [] →
        (∀ iv ∈ avail, (interval_to_minutes iv).isSome) →
        interval_to_minutes target = some tm →
        (∀ c, search_suitable_interval avail target = Except.ok c →
            c ∈ avail ∧ minutes_key c ≤ tm ∧
            ∀ iv ∈ avail, minutes_key iv ≤ tm → minutes_key iv ≤ minutes_key c) ∧
        (search_suitable_interval avail target = Except.error IntervalError.noSuitableInterval ↔
            ∀ iv ∈ avail, tm < minutes_key iv)) ∧
    search_suitable_interval ["1m", "5m", "1h"] ("15m") = Except.ok ("5m") ∧
    search_suitable_interval ["5m", "1h"] ("1m") = Except.error IntervalError.noSuitableInterval := by
  refine ⟨?_, rfl, rfl⟩
  intro avail target tm havne hall htm
  have hall' : (avail.all fun iv => (interval_to_minutes iv).isSome) = true := by
    rw [List.all_eq_true]
    exact hall
  have hperm : List.Perm (List.insertionSort (fun a b => minutes_key a ≤ minutes_key b) avail)
      avail :=
    List.perm_insertionSort _ _
  have hsorted : (List.insertionSort (fun a b => minutes_key a ≤ minutes_key b) avail).Pairwise
      (fun a b => minutes_key a ≤ minutes_key b) :=
    List.sorted_insertionSort _ _
  have hform : search_suitable_interval avail target =
      (match (List.insertionSort (fun a b => minutes_key a ≤ minutes_key b) avail).foldl
          (fun chosen iv => if minutes_key iv ≤ tm then some iv else chosen) none with
       | none => Except.error IntervalError.noSuitableInterval
       | some c => Except.ok c) := by
    unfold search_suitable_interval
    rw [hall', htm]
    simp
  rw [hform]
  cases hfold : (List.insertionSort (fun a b => minutes_key a ≤ minutes_key b) avail).foldl
      (fun chosen iv => if minutes_key iv ≤ tm then some iv else chosen) none with
  | none =>
    constructor
    · intro c hc
      exact absurd hc (by simp)
    · have hnone := (foldl_choose_none minutes_key tm _ _).mp hfold
      constructor
      · intro _ iv hiv
        exact Nat.not_le.mp (hnone.2 iv (hperm.mem_iff.mpr hiv))
      · intro _; rfl
  | some c0 =>
    have hc0 := foldl_choose_mem minutes_key tm _ _ _ hfold
    rcases hc0 with ⟨hc0m, hc0k⟩ | hbad
    swap
    · cases hbad
    constructor
    · intro c hc
      have hcc : c0 = c := by
        have : (Except.ok c0 : Except IntervalError String) = Except.ok c := hc
        cases this
        rfl
      subst hcc
      refine ⟨hperm.mem_iff.mp hc0m, hc0k, fun iv hiv hivt => ?_⟩
      exact foldl_choose_max minutes_key tm _ hsorted _ _ hfold iv (hperm.mem_iff.mpr hiv) hivt
    · constructor
      · intro hcontra
        exact absurd hcontra (by simp)
      · intro hlt
        exact absurd hc0k (Nat.not_le.mpr (hlt c0 (hperm.mem_iff.mp hc0m)))

/-- C4 (witness): the general selection property applied to available
intervals 1m, 5m, 1h with target 15m, whose chosen interval is 5m. -/
theorem c4_interval_selection_witness :
    ("5m" : String) ∈ ["1m", "5m", "1h"] ∧ minutes_key ("5m") ≤ 15 ∧
    ∀ iv ∈ ["1m", "5m", "1h"], minutes_key iv ≤ 15 → minutes_key iv ≤ minutes_key ("5m") :=
  ((c4_interval_selection.1 (["1m", "5m", "1h"]) ("15m") 15 (by decide)
      (by decide) (by decide)).1 ("5m") (by rfl))

theorem foldl_max_mem (f : Kline → Int) (rs : List Kline) :
    ∀ a : Int,
      (rs.foldl (fun acc b => max acc (f b)) a = a ∨
        ∃ x ∈ rs, rs.foldl (fun acc b => max acc (f b)) a = f x) ∧
      a ≤ rs.foldl (fun acc b => max acc (f b)) a ∧
      ∀ x ∈ rs, f x ≤ rs.foldl (fun acc b => max acc (f b)) a := by
  induction rs with
  | nil =>
    intro a
    refine ⟨Or.inl rfl, le_refl _, ?_⟩
    intro x hx; cases hx
  | cons b rs ih =>
    intro a
    have h := ih (max a (f b))
    have e : (b :: rs).foldl (fun acc x => max acc (f x)) a
        = rs.foldl (fun acc x => max acc (f x)) (max a (f b)) := rfl
    rw [e]
    refine ⟨?_, le_trans (le_max_left _ _) h.2.1, ?_⟩
    · rcases h.1 with heq | ⟨x, hx, heq⟩
      · rw [heq]
        rcases max_choice a (f b) with h' | h'
        · exact Or.inl h'
        · exact Or.inr ⟨b, List.mem_cons_self _ _, h'⟩
      · exact Or.inr ⟨x, List.mem_cons_of_mem _ hx, heq⟩
    · intro x hx
      rcases List.mem_cons.mp hx with rfl | hx'
      · exact le_trans (le_max_right _ _) h.2.1
      · exact h.2.2 x hx'

theorem foldl_min_mem (f : Kline → Int) (rs : List Kline) :
    ∀ a : Int,
      (rs.foldl (fun acc b => min acc (f b)) a = a ∨
        ∃ x ∈ rs, rs.foldl (fun acc b => min acc (f b)) a = f x) ∧
      rs.foldl (fun acc b => min acc (f b)) a ≤ a ∧
      ∀ x ∈ rs, rs.foldl (fun acc b => min acc (f b)) a ≤ f x := by
  induction rs with
  | nil =>
    intro a
    refine ⟨Or.inl rfl, le_refl _, ?_⟩
    intro x hx; cases hx
  | cons b rs ih =>
    intro a
    have h := ih (min a (f b))
    have e : (b :: rs).foldl (fun acc x => min acc (f x)) a
        = rs.foldl (fun acc x => min acc (f x)) (min a (f b)) := rfl
    rw [e]
    refine ⟨?_, le_trans h.2.1 (min_le_left _ _), ?_⟩
    · rcases h.1 with heq | ⟨x, hx, heq⟩
      · rw [heq]
        rcases min_choice a (f b) with h' | h'
        · exact Or.inl h'
        · exact Or.inr ⟨b, List.mem_cons_self _ _, h'⟩
      · exact Or.inr ⟨x, List.mem_cons_of_mem _ hx, heq⟩
    · intro x hx
      rcases List.mem_cons.mp hx with rfl | hx'
      · exact le_trans h.2.1 (min_le_right _ _)
      · exact h.2.2 x hx'

theorem foldl_add_eq {M : Type} [AddCommMonoid M] (f : Kline → M) (rs : List Kline) :
    ∀ a : M, rs.foldl (fun acc b => acc + f b) a = a + (rs.map f).sum := by
  induction rs with
  | nil => intro a; simp
  | cons b rs ih =>
    intro a
    have e : (b :: rs).foldl (fun acc x => acc + f x) a
        = rs.foldl (fun acc x => acc + f x) (a + f b) := rfl
    rw [e, ih, List.map_cons, List.sum_cons, add_assoc]

theorem first_row_spec (rs : List Kline) :
    ∀ r : Kline, first_row r rs ∈ r :: rs ∧ (first_row r rs).openTime ≤ r.openTime ∧
      ∀ x ∈ rs, (first_row r rs).openTime ≤ x.openTime := by
  induction rs with
  | nil =>
    intro r
    refine ⟨List.mem_cons_self _ _, le_refl _, ?_⟩
    intro x hx; cases hx
  | cons b rs ih =>
    intro r
    have e : first_row r (b :: rs) = first_row (if b.openTime < r.openTime then b else r) rs := rfl
    rcases ih (if b.openTime < r.openTime then b else r) with ⟨hm, hle, hall⟩
    have hr' : (if b.openTime < r.openTime then b else r).openTime ≤ r.openTime := by
      by_cases hb : b.openTime < r.openTime
      · rw [if_pos hb]; exact le_of_lt hb
      · rw [if_neg hb]
    have hb' : (if b.openTime < r.openTime then b else r).openTime ≤ b.openTime := by
      by_cases hb : b.openTime < r.openTime
      · rw [if_pos hb]
      · rw [if_neg hb]; exact Nat.le_of_not_lt hb
    refine ⟨?_, ?_, ?_⟩
    · rw [e]
      rcases List.mem_cons.mp hm with hh | ht
      · rw [hh]
        by_cases hb : b.openTime < r.openTime
        · rw [if_pos hb]; exact List.mem_cons_of_mem _ (List.mem_cons_self _ _)
        · rw [if_neg hb]; exact List.mem_cons_self _ _
      · exact List.mem_cons_of_mem _ (List.mem_cons_of_mem _ ht)
    · rw [e]; exact le_trans hle hr'
    · intro x hx
      rw [e]
      rcases List.mem_cons.mp hx with rfl | hx'
      · exact le_trans hle hb'
      · exact hall x hx'

theorem last_row_spec (rs : List Kline) :
    ∀ r : Kline, last_row r rs ∈ r :: rs ∧ r.openTime ≤ (last_row r rs).openTime ∧
      ∀ x ∈ rs, x.openTime ≤ (last_row r rs).openTime := by
  induction rs with
  | nil =>
    intro r
    refine ⟨List.mem_cons_self _ _, le_refl _, ?_⟩
    intro x hx; cases hx
  | cons b rs ih =>
    intro r
    have e : last_row r (b :: rs) = last_row (if r.openTime ≤ b.openTime then b else r) rs := rfl
    rcases ih (if r.openTime ≤ b.openTime then b else r) with ⟨hm, hle, hall⟩
    have hr' : r.openTime ≤ (if r.openTime ≤ b.openTime then b else r).openTime := by
      by_cases hb : r.openTime ≤ b.openTime
      · rw [if_pos hb]; exact hb
      · rw [if_neg hb]
    have hb' : b.openTime ≤ (if r.openTime ≤ b.openTime then b else r).openTime := by
      by_cases hb : r.openTime ≤ b.openTime
      · rw [if_pos hb]
      · rw [if_neg hb]; exact le_of_lt (Nat.lt_of_not_le hb)
    refine ⟨?_, ?_, ?_⟩
    · rw [e]
      rcases List.mem_cons.mp hm with hh | ht
      · rw [hh]
        by_cases hb : r.openTime ≤ b.openTime
        · rw [if_pos hb]; exact List.mem_cons_of_mem _ (List.mem_cons_self _ _)
        · rw [if_neg hb]; exact List.mem_cons_self _ _
      · exact List.mem_cons_of_mem _ (List.mem_cons_of_mem _ ht)
    · rw [e]; exact le_trans hr' hle
    · intro x hx
      rw [e]
      rcases List.mem_cons.mp hx with rfl | hx'
      · exact le_trans hb' hle
      · exact hall x hx'

theorem bucket_row_open_time {width t : Nat} {bars : List Kline} {r : AggBar}
    (h : (match rows_in_bucket width t bars with
          | [] => none
          | r0 :: rs => some (aggregate_bucket t r0 rs)) = some r) :
    r.open_time = t := by
  cases hr : rows_in_bucket width t bars with
  | nil => rw [hr] at h; cases h
  | cons r0 rs => rw [hr] at h; cases h; rfl

theorem bucket_starts_sorted (width : Nat) (bars : List Kline) :
    (bucket_starts width bars).Pairwise (fun a b => a < b) := by
  have hsort : (bucket_starts width bars).Pairwise (fun a b : Nat => a ≤ b) :=
    List.sorted_insertionSort _ _
  have hnodup : (bucket_starts width bars).Nodup :=
    (List.perm_insertionSort _ _).nodup_iff.mpr (List.nodup_dedup _)
  exact (hsort.and hnodup).imp (fun h => lt_of_le_of_ne h.1 h.2)

theorem mem_bucket_starts {width : Nat} {bars : List Kline} {b : Kline} (hb : b ∈ bars) :
    time_bucket width b.openTime ∈ bucket_starts width bars := by
  unfold bucket_starts
  refine (List.perm_insertionSort _ _).mem_iff.mpr (List.mem_dedup.mpr ?_)
  exact List.mem_map_of_mem _ hb

theorem bucket_starts_src {width t : Nat} {bars : List Kline}
    (ht : t ∈ bucket_starts width bars) :
    ∃ b ∈ bars, time_bucket width b.openTime = t := by
  unfold bucket_starts at ht
  have h1 := (List.perm_insertionSort _ _).mem_iff.mp ht
  have h2 := List.mem_dedup.mp h1
  exact List.mem_map.mp h2

/-- C3: the aggregation partitions the stored bars into origin-aligned
buckets of the target width — each output row's `open_time` is a multiple of
the width and is `floor(open_time / width) * width` of some contributing bar,
each bar contributes to exactly the row of its own bucket, empty buckets are
omitted, output is strictly ascending by bucket start — and each row rolls up
open of earliest bar, close of latest bar, max high, min low, summed volume
and summed trade count; the spec's five 1-minute bars with closes
10, 11, 9, 12, 10 and unit volumes roll up into one 5-minute row with
open = bar1's open, close 10, high 12, low 9, volume 5, and a bar off the
bucket boundary lands in its floor-aligned bucket. -/
theorem c3_aggregate_rollup :
    (∀ (width : Nat) (bars : List Kline),
        (get_candlestick_data width bars).Pairwise (fun a b => a.open_time < b.open_time)) ∧
    (∀ (width : Nat) (bars : List Kline), ∀ r ∈ get_candlestick_data width bars,
        width ∣ r.open_time ∧ ∃ b ∈ bars, time_bucket width b.openTime = r.open_time) ∧
    (∀ (width : Nat) (bars : List Kline), ∀ b ∈ bars,
        ∃ r ∈ get_candlestick_data width bars, r.open_time = time_bucket width b.openTime) ∧
    (∀ (width : Nat) (bars : List Kline), ∀ r ∈ get_candlestick_data width bars,
        ∃ r0 rs, rows_in_bucket width r.open_time bars = r0 :: rs ∧
          (∃ x ∈ r0 :: rs, r.high = x.high) ∧ (∀ x ∈ r0 :: rs, x.high ≤ r.high) ∧
          (∃ x ∈ r0 :: rs, r.low = x.low) ∧ (∀ x ∈ r0 :: rs, r.low ≤ x.low) ∧
          r.volume = ((r0 :: rs).map (fun x => x.volume)).sum ∧
          r.number_of_trades = ((r0 :: rs).map (fun x => x.number_of_trades)).sum ∧
          (∃ x ∈ r0 :: rs, r.opn = x.opn ∧ ∀ y ∈ r0 :: rs, x.openTime ≤ y.openTime) ∧
          (∃ x ∈ r0 :: rs, r.close = x.close ∧ ∀ y ∈ r0 :: rs, y.openTime ≤ x.openTime)) ∧
    get_candlestick_data 300000 [ex_bar1, ex_bar2, ex_bar3, ex_bar4, ex_bar5] =
      [⟨0, 10, 12, 9, 10, 5, 25⟩] ∧
    get_candlestick_data 300000 [ex_late_bar] = [⟨300000, 2, 3, 1, 2, 4, 8⟩] := by
  refine ⟨?_, ?_, ?_, ?_, rfl, rfl⟩
  · intro width bars
    refine List.Pairwise.filterMap _ ?_ (bucket_starts_sorted width bars)
    intro t t' hlt x hx y hy
    rw [Option.mem_def] at hx hy
    rw [bucket_row_open_time hx, bucket_row_open_time hy]
    exact hlt
  · intro width bars r hr
    rcases List.mem_filterMap.mp hr with ⟨t, ht, hft⟩
    have hot : r.open_time = t := bucket_row_open_time hft
    rcases bucket_starts_src ht with ⟨b, hb, hbt⟩
    constructor
    · rw [hot, ← hbt]
      exact Dvd.intro _ rfl
    · exact ⟨b, hb, by rw [hbt, hot]⟩
  · intro width bars b hb
    have ht : time_bucket width b.openTime ∈ bucket_starts width bars := mem_bucket_starts hb
    have hbmem : b ∈ rows_in_bucket width (time_bucket width b.openTime) bars := by
      unfold rows_in_bucket
      rw [List.mem_filter]
      exact ⟨hb, by simp⟩
    cases hrows : rows_in_bucket width (time_bucket width b.openTime) bars with
    | nil => rw [hrows] at hbmem; cases hbmem
    | cons r0 rs =>
      refine ⟨aggregate_bucket (time_bucket width b.openTime) r0 rs, ?_, rfl⟩
      exact List.mem_filterMap.mpr ⟨time_bucket width b.openTime, ht, by rw [hrows]⟩
  · intro width bars r hr
    rcases List.mem_filterMap.mp hr with ⟨t, ht, hft⟩
    cases hrows : rows_in_bucket width t bars with
    | nil => rw [hrows] at hft; cases hft
    | cons r0 rs =>
      rw [hrows] at hft
      cases hft
      refine ⟨r0, rs, hrows, ?_, ?_, ?_, ?_, ?_, ?_, ?_, ?_⟩
      · rcases (foldl_max_mem (fun x => x.high) rs r0.high).1 with heq | ⟨x, hx, heq⟩
        · exact ⟨r0, List.mem_cons_self _ _, heq⟩
        · exact ⟨x, List.mem_cons_of_mem _ hx, heq⟩
      · intro x hx
        rcases List.mem_cons.mp hx with rfl | hx'
        · exact (foldl_max_mem (fun y => y.high) rs x.high).2.1
        · exact (foldl_max_mem (fun y => y.high) rs r0.high).2.2 x hx'
      · rcases (foldl_min_mem (fun x => x.low) rs r0.low).1 with heq | ⟨x, hx, heq⟩
        · exact ⟨r0, List.mem_cons_self _ _, heq⟩
        · exact ⟨x, List.mem_cons_of_mem _ hx, heq⟩
      · intro x hx
        rcases List.mem_cons.mp hx with rfl | hx'
        · exact (foldl_min_mem (fun y => y.low) rs x.low).2.1
        · exact (foldl_min_mem (fun y => y.low) rs r0.low).2.2 x hx'
      · show rs.foldl (fun acc b => acc + b.volume) r0.volume = _
        rw [List.map_cons, List.sum_cons]
        exact foldl_add_eq _ rs r0.volume
      · show rs.foldl (fun acc b => acc + b.number_of_trades) r0.number_of_trades = _
        rw [List.map_cons, List.sum_cons]
        exact foldl_add_eq _ rs r0.number_of_trades
      · rcases first_row_spec rs r0 with ⟨hm, hle, hall⟩
        refine ⟨first_row r0 rs, hm, rfl, ?_⟩
        intro y hy
        rcases List.mem_cons.mp hy with rfl | hy'
        · exact hle
        · exact hall y hy'
      · rcases last_row_spec rs r0 with ⟨hm, hle, hall⟩
        refine ⟨last_row r0 rs, hm, rfl, ?_⟩
        intro y hy
        rcases List.mem_cons.mp hy with rfl | hy'
        · exact hle
        · exact hall y hy'

/-- C3 (witness): the general bucket-assignment property applied to the third
example bar, which contributes to the single 5-minute bucket starting at 0. -/
theorem c3_aggregate_rollup_witness :
    ∃ r ∈ get_candlestick_data 300000 [ex_bar1, ex_bar2, ex_bar3, ex_bar4, ex_bar5],
      r.open_time = time_bucket 300000 ex_bar3.openTime :=
  c3_aggregate_rollup.2.2.1 300000 [ex_bar1, ex_bar2, ex_bar3, ex_bar4, ex_bar5] ex_bar3
    (by decide)

theorem pairwise_le_getLast {l : List Kline} {a : Kline}
    (hpw : l.Pairwise (fun x y => x.openTime < y.openTime)) (h : l.getLast? = some a) :
    ∀ x ∈ l, x.openTime ≤ a.openTime := by
  rcases List.getLast?_eq_some_iff.mp h with ⟨ys, rfl⟩
  intro x hx
  rcases List.mem_append.mp hx with hx' | hx'
  · exact le_of_lt ((List.pairwise_append.mp hpw).2.2 x hx' a (List.mem_singleton.mpr rfl))
  · rw [List.mem_singleton] at hx'
    rw [hx']

theorem mem_of_getLast? {l : List Kline} {a : Kline} (h : l.getLast? = some a) : a ∈ l := by
  rcases List.getLast?_eq_some_iff.mp h with ⟨ys, rfl⟩
  exact List.mem_append.mpr (Or.inr (List.mem_singleton.mpr rfl))

theorem get_klines_loop_pairwise (client : Nat → List Kline) (timeframe : Nat)
    (htf : 0 < timeframe)
    (hasc : ∀ s, (client s).Pairwise (fun a b => a.openTime < b.openTime))
    (hge : ∀ s, ∀ k ∈ client s, s ≤ k.openTime) :
    ∀ (fuel start_ts : Nat) (existed : Bool) (idx : Nat) (acc : List Kline),
      acc.Pairwise (fun a b => a.openTime < b.openTime) →
      (∀ a ∈ acc, a.openTime < start_ts) →
      ∀ run, get_klines_loop client timeframe 500 fuel start_ts existed idx acc = some run →
        run.output_data.Pairwise (fun a b => a.openTime < b.openTime) := by
  intro fuel
  induction fuel with
  | zero =>
    intro start_ts existed idx acc _ _ run h
    cases h
  | succ fuel ih =>
    intro start_ts existed idx acc hpw hbound run h
    simp only [get_klines_loop] at h
    by_cases hex : (existed || !(client start_ts).isEmpty) = true
    · rw [if_pos hex] at h
      cases hlast : (client start_ts).getLast? with
      | none =>
        simp only [hlast] at h
        cases h
      | some last =>
        simp only [hlast] at h
        have hlmem : last ∈ client start_ts := mem_of_getLast? hlast
        have hacc' : (acc ++ client start_ts).Pairwise (fun a b => a.openTime < b.openTime) :=
          List.pairwise_append.mpr ⟨hpw, hasc _,
            fun a ha b hb => lt_of_lt_of_le (hbound a ha) (hge _ b hb)⟩
        by_cases hlen : (client start_ts).length < 500
        · rw [if_pos hlen] at h
          cases h
          exact hacc'
        · rw [if_neg hlen] at h
          refine ih _ _ _ _ hacc' ?_ run h
          intro a ha
          rcases List.mem_append.mp ha with ha' | ha'
          · calc a.openTime < start_ts := hbound a ha'
              _ ≤ last.openTime := hge _ last hlmem
              _ < last.openTime + timeframe := Nat.lt_add_of_pos_right htf
          · calc a.openTime ≤ last.openTime := pairwise_le_getLast (hasc _) hlast a ha'
              _ < last.openTime + timeframe := Nat.lt_add_of_pos_right htf
    · rw [if_neg hex] at h
      by_cases hlen : (client start_ts).length < 500
      · rw [if_pos hlen] at h
        cases h
        exact hpw
      · rw [if_neg hlen] at h
        refine ih _ _ _ _ hpw ?_ run h
        intro a ha
        exact lt_of_lt_of_le (hbound a ha) (Nat.le_add_right _ _)

/-- C7: in append mode `get_klines` advances the cursor after a non-empty
page to the last returned bar's open time plus the interval width (visible in
the returned final cursor), and against any source whose pages are strictly
ascending in open time and never start before the requested timestamp, every
successful run's concatenated output is strictly increasing in open time —
in particular no bar is duplicated across a page boundary. -/
theorem c7_append_mode_strict_mono :
    (∀ (client : Nat → List Kline) (timeframe start_ts fuel : Nat) (last : Kline),
        (client start_ts).getLast? = some last → (client start_ts).length < 500 →
        get_klines client timeframe start_ts (fuel + 1) =
          some ⟨client start_ts, last.openTime + timeframe, 1⟩) ∧
    (∀ (client : Nat → List Kline) (timeframe : Nat),
        0 < timeframe →
        (∀ s, (client s).Pairwise (fun a b => a.openTime < b.openTime)) →
        (∀ s, ∀ k ∈ client s, s ≤ k.openTime) →
        ∀ (start_ts fuel : Nat) (run : KlinesRun),
          get_klines client timeframe start_ts fuel = some run →
          run.output_data.Pairwise (fun a b => a.openTime < b.openTime)) := by
  constructor
  · intro client timeframe start_ts fuel last hlast hlen
    have hne : (client start_ts).isEmpty = false := by
      cases hcl : client start_ts with
      | nil => rw [hcl] at hlast; cases hlast
      | cons x xs => rfl
    unfold get_klines
    simp only [get_klines_loop, hne, Bool.not_false, Bool.or_true, if_true, hlast,
      if_pos hlen]
    rfl
  · intro client timeframe htf hasc hge start_ts fuel run h
    exact get_klines_loop_pairwise client timeframe htf hasc hge fuel start_ts false 0 []
      List.Pairwise.nil (fun a ha => absurd ha (List.not_mem_nil a)) run h

/-- C7 (witness): a source answering with the two ascending bars at open
times 100 and 160 for any request at or before 100 yields a strictly
ascending output. -/
theorem c7_append_mode_strict_mono_witness :
    ([c7_bar1, c7_bar2] : List Kline).Pairwise (fun a b => a.openTime < b.openTime) := by
  have hasc : ∀ s, (c7_client s).Pairwise (fun a b => a.openTime < b.openTime) := by
    intro s
    unfold c7_client
    by_cases h : s ≤ 100
    · rw [if_pos h]; decide
    · rw [if_neg h]; exact List.Pairwise.nil
  have hge : ∀ s, ∀ k ∈ c7_client s, s ≤ k.openTime := by
    intro s k hk
    unfold c7_client at hk
    by_cases h : s ≤ 100
    · rw [if_pos h] at hk
      rcases List.mem_cons.mp hk with rfl | hk'
      · exact h
      · rw [List.mem_singleton] at hk'
        subst hk'
        exact le_trans h (by decide)
    · rw [if_neg h] at hk
      cases hk
  exact c7_append_mode_strict_mono.2 c7_client 60 (by decide) hasc hge 50 5
    ⟨[c7_bar1, c7_bar2], 220, 1⟩ rfl

theorem filter_advance (upstream : List Kline) (w : Nat) (hw : 0 < w)
    (hsp : upstream.Pairwise (fun a b => a.openTime + w ≤ b.openTime))
    (s : Nat) (last : Kline)
    (hlast : (fetchSource upstream s).getLast? = some last) :
    upstream.filter (fun k => decide (s ≤ k.openTime)) =
      fetchSource upstream s ++
        upstream.filter (fun k => decide (last.openTime + w ≤ k.openTime)) := by
  have hlsp : (upstream.filter (fun k => decide (s ≤ k.openTime))).Pairwise
      (fun a b => a.openTime + w ≤ b.openTime) :=
    List.Pairwise.sublist (List.filter_sublist _) hsp
  have hmem_l : ∀ x ∈ upstream.filter (fun k => decide (s ≤ k.openTime)), s ≤ x.openTime := by
    intro x hx
    exact of_decide_eq_true (List.mem_filter.mp hx).2
  have hlast_mem : last ∈ (upstream.filter (fun k => decide (s ≤ k.openTime))).take 500 :=
    mem_of_getLast? hlast
  have hlast_mem_l : last ∈ upstream.filter (fun k => decide (s ≤ k.openTime)) :=
    (List.take_sublist _ _).subset hlast_mem
  have htake_sp : ((upstream.filter (fun k => decide (s ≤ k.openTime))).take 500).Pairwise
      (fun a b => a.openTime + w ≤ b.openTime) :=
    List.Pairwise.sublist (List.take_sublist _ _) hlsp
  have htake_lt : ((upstream.filter (fun k => decide (s ≤ k.openTime))).take 500).Pairwise
      (fun a b => a.openTime < b.openTime) :=
    htake_sp.imp (fun hab => Nat.lt_of_lt_of_le (Nat.lt_add_of_pos_right hw) hab)
  have hbound_take :
      ∀ x ∈ (upstream.filter (fun k => decide (s ≤ k.openTime))).take 500,
        x.openTime ≤ last.openTime :=
    pairwise_le_getLast htake_lt hlast
  have hdecomp : upstream.filter (fun k => decide (s ≤ k.openTime)) =
      (upstream.filter (fun k => decide (s ≤ k.openTime))).take 500 ++
        (upstream.filter (fun k => decide (s ≤ k.openTime))).drop 500 :=
    (List.take_append_drop _ _).symm
  have hcross :
      ∀ a ∈ (upstream.filter (fun k => decide (s ≤ k.openTime))).take 500,
        ∀ b ∈ (upstream.filter (fun k => decide (s ≤ k.openTime))).drop 500,
          a.openTime + w ≤ b.openTime :=
    (List.pairwise_append.mp (hdecomp ▸ hlsp)).2.2
  have h1 : ((upstream.filter (fun k => decide (s ≤ k.openTime))).take 500).filter
      (fun k => decide (last.openTime + w ≤ k.openTime)) = [] := by
    rw [List.filter_eq_nil_iff]
    intro a ha hdec
    have h1a : last.openTime + w ≤ a.openTime := of_decide_eq_true hdec
    have h1b : a.openTime ≤ last.openTime := hbound_take a ha
    omega
  have h2 : ((upstream.filter (fun k => decide (s ≤ k.openTime))).drop 500).filter
      (fun k => decide (last.openTime + w ≤ k.openTime)) =
      (upstream.filter (fun k => decide (s ≤ k.openTime))).drop 500 := by
    rw [List.filter_eq_self]
    intro a ha
    exact decide_eq_true (hcross last hlast_mem a ha)
  have h3 : upstream.filter (fun k => decide (last.openTime + w ≤ k.openTime)) =
      (upstream.filter (fun k => decide (s ≤ k.openTime))).filter
        (fun k => decide (last.openTime + w ≤ k.openTime)) := by
    rw [List.filter_filter]
    apply List.filter_congr
    intro a _
    by_cases hc : last.openTime + w ≤ a.openTime
    · have hs_last : s ≤ last.openTime := hmem_l last hlast_mem_l
      have hsa : s ≤ a.openTime := le_trans (le_trans hs_last (Nat.le_add_right _ _)) hc
      simp [hc, hsa]
    · simp [hc]
  have h4 : (upstream.filter (fun k => decide (s ≤ k.openTime))).filter
      (fun k => decide (last.openTime + w ≤ k.openTime)) =
      (upstream.filter (fun k => decide (s ≤ k.openTime))).drop 500 := by
    conv_lhs => rw [hdecomp]
    rw [List.filter_append, h1, h2, List.nil_append]
  rw [h3, h4]
  exact hdecomp

theorem get_klines_loop_filter (upstream : List Kline) (w : Nat) (hw : 0 < w)
    (hsp : upstream.Pairwise (fun a b => a.openTime + w ≤ b.openTime)) :
    ∀ (fuel s : Nat) (existed : Bool) (idx : Nat) (acc : List Kline) (run : KlinesRun),
      get_klines_loop (fetchSource upstream) w 500 fuel s existed idx acc = some run →
      run.output_data = acc ++ upstream.filter (fun k => decide (s ≤ k.openTime)) := by
  intro fuel
  induction fuel with
  | zero => intro s existed idx acc run h; cases h
  | succ fuel ih =>
    intro s existed idx acc run h
    simp only [get_klines_loop] at h
    by_cases hex : (existed || !(fetchSource upstream s).isEmpty) = true
    · rw [if_pos hex] at h
      cases hlast : (fetchSource upstream s).getLast? with
      | none =>
        simp only [hlast] at h
        cases h
      | some last =>
        simp only [hlast] at h
        by_cases hlen : (fetchSource upstream s).length < 500
        · rw [if_pos hlen] at h
          cases h
          show acc ++ fetchSource upstream s = acc ++ _
          have htake_all : fetchSource upstream s =
              upstream.filter (fun k => decide (s ≤ k.openTime)) := by
            unfold fetchSource
            apply List.take_of_length_le
            unfold fetchSource at hlen
            rw [List.length_take] at hlen
            omega
          rw [htake_all]
        · rw [if_neg hlen] at h
          have hrec := ih _ _ _ _ run h
          rw [hrec, filter_advance upstream w hw hsp s last hlast, List.append_assoc]
    · rw [if_neg hex] at h
      rcases Bool.eq_false_or_eq_true ((fetchSource upstream s).isEmpty) with hT | hF
      swap
      · exfalso
        apply hex
        rw [hF]
        simp
      have htemp : fetchSource upstream s = [] := by
        cases hc : fetchSource upstream s with
        | nil => rfl
        | cons a t => rw [hc] at hT; cases hT
      have hfil : upstream.filter (fun k => decide (s ≤ k.openTime)) = [] := by
        rcases List.take_eq_nil_iff.mp htemp with h500 | hnil
        · exact absurd h500 (by decide)
        · exact hnil
      rw [htemp] at h
      simp only [List.length_nil] at h
      rw [if_pos (by decide : (0 : Nat) < 500)] at h
      cases h
      show acc = acc ++ _
      rw [hfil, List.append_nil]

theorem get_klines_first_page_empty (client : Nat → List Kline) (w s fuel : Nat)
    (hc : client s = []) :
    get_klines client w s (fuel + 1) = some ⟨[], s + w, 1⟩ := by
  unfold get_klines
  simp [get_klines_loop, hc]

theorem resume_point_eq_max_add_one {closes : List Nat} {initial : Nat}
    (hne : closes ≠ []) (hM : closes.foldr max 0 ≠ 0) :
    resume_point closes initial = closes.foldr max 0 + 1 := by
  unfold resume_point get_last_close_time
  have hE : closes.isEmpty = false := by
    cases closes with
    | nil => exact absurd rfl hne
    | cons a l => rfl
  rw [hE]
  simp only [Bool.false_eq_true, if_false, if_neg hM]

theorem pair_closes_append (t1 t2 : List CandleRow) (tpid : Nat) :
    pair_closes (t1 ++ t2) tpid = pair_closes t1 tpid ++ pair_closes t2 tpid := by
  unfold pair_closes
  rw [List.filter_append, List.map_append]

theorem pair_closes_map (ks : List Kline) (tpid : Nat) :
    pair_closes (ks.map (fun k => ⟨tpid, k⟩)) tpid = ks.map (fun k => k.closeTime) := by
  unfold pair_closes
  rw [List.filter_map]
  have hp : ((fun r : CandleRow => r.trading_pair_id == tpid) ∘
      (fun k : Kline => (⟨tpid, k⟩ : CandleRow))) = fun _ => true := by
    funext k
    simp
  rw [hp, List.filter_true, List.map_map]
  rfl

/-- C6: with upstream bars on a fixed-width grid (consecutive open times at
least one width apart, close = open + width − 1, positive open times) and a
well-formed stored table for the pair, running the per-pair ingestion twice
in sequence with no new upstream data stores zero additional bars the second
time: the resume point after the first run is exactly the next candle's open
time, the exchange answers it with an empty page, and the write is skipped. -/
theorem c6_idempotent_resume :
    ∀ (cfg : PairConfig) (table : List CandleRow),
      0 < cfg.w →
      cfg.upstream.Pairwise (fun a b => a.openTime + cfg.w ≤ b.openTime) →
      (∀ k ∈ cfg.upstream, k.closeTime = k.openTime + cfg.w - 1) →
      (∀ k ∈ cfg.upstream, 0 < k.openTime) →
      (∀ r ∈ table, r.trading_pair_id = cfg.tpid →
          r.bar.closeTime = r.bar.openTime + cfg.w - 1 ∧ 0 < r.bar.openTime) →
      process_one cfg (process_one cfg table) = process_one cfg table := by
  intro cfg table hw hsp hclose hopen htable
  by_cases hst : cfg.status_ok = false
  · have h1 : process_one cfg table = table := by
      unfold process_one
      rw [if_pos hst]
    rw [h1]
    exact h1
  cases hk : get_klines (fetchSource cfg.upstream) cfg.w
      (resume_point (pair_closes table cfg.tpid) cfg.initial_ms) cfg.fuel with
  | none =>
    have hpb : pair_batch cfg table = none := by
      unfold pair_batch
      simp only [hk]
    have h1 : process_one cfg table = table := by
      unfold process_one
      rw [if_neg hst, hpb]
    rw [h1]
    exact h1
  | some run =>
    have hfuel : ∃ n, cfg.fuel = n + 1 := by
      cases hf : cfg.fuel with
      | zero => rw [hf] at hk; cases hk
      | succ n => exact ⟨n, rfl⟩
    have hout : run.output_data = cfg.upstream.filter (fun k =>
        decide (resume_point (pair_closes table cfg.tpid) cfg.initial_ms ≤ k.openTime)) := by
      simpa using get_klines_loop_filter cfg.upstream cfg.w hw hsp cfg.fuel _ false 0 [] run hk
    have hposc : ∀ c ∈ pair_closes table cfg.tpid, 0 < c := by
      intro c hc
      unfold pair_closes at hc
      rcases List.mem_map.mp hc with ⟨r, hr, rfl⟩
      have hrf := List.mem_filter.mp hr
      have htp' : r.trading_pair_id = cfg.tpid := by
        have h := hrf.2
        rwa [beq_iff_eq] at h
      rcases htable r hrf.1 htp' with ⟨hcl, hop⟩
      omega
    have hcl1 : ∀ c ∈ pair_closes table cfg.tpid,
        c < resume_point (pair_closes table cfg.tpid) cfg.initial_ms := by
      intro c hc
      have hpcne : pair_closes table cfg.tpid ≠ [] := List.ne_nil_of_mem hc
      have hM0 : (pair_closes table cfg.tpid).foldr max 0 ≠ 0 := by
        have h1 := le_foldr_max hc
        have h2 := hposc c hc
        omega
      rw [resume_point_eq_max_add_one hpcne hM0]
      have := le_foldr_max hc
      omega
    have hlow : ∀ t ∈ table, t.trading_pair_id = cfg.tpid →
        t.bar.openTime < resume_point (pair_closes table cfg.tpid) cfg.initial_ms := by
      intro t ht htp
      have hcmem : t.bar.closeTime ∈ pair_closes table cfg.tpid := by
        unfold pair_closes
        refine List.mem_map_of_mem _ (List.mem_filter.mpr ⟨ht, ?_⟩)
        rw [htp]
        exact beq_self_eq_true _
      rcases htable t ht htp with ⟨hcl, hop⟩
      have := hcl1 _ hcmem
      omega
    cases hL : cfg.upstream.filter (fun k =>
        decide (resume_point (pair_closes table cfg.tpid) cfg.initial_ms ≤ k.openTime)) with
    | nil =>
      have hrun : run.output_data = [] := by rw [hout, hL]
      have hpb : pair_batch cfg table = some [] := by
        unfold pair_batch
        simp only [hk]
        rw [hrun]
        rfl
      have h1 : process_one cfg table = table := by
        unfold process_one
        rw [if_neg hst, hpb]
        rfl
      rw [h1]
      exact h1
    | cons x xs =>
      have hLmem : ∀ k ∈ x :: xs, k ∈ cfg.upstream ∧
          resume_point (pair_closes table cfg.tpid) cfg.initial_ms ≤ k.openTime := by
        intro k hk'
        rw [← hL] at hk'
        exact ⟨(List.mem_filter.mp hk').1, of_decide_eq_true (List.mem_filter.mp hk').2⟩
      have hLsp : (x :: xs).Pairwise (fun a b => a.openTime + cfg.w ≤ b.openTime) := by
        rw [← hL]
        exact List.Pairwise.sublist (List.filter_sublist _) hsp
      have hLlt : (x :: xs).Pairwise (fun a b => a.openTime < b.openTime) :=
        hLsp.imp (fun hab => Nat.lt_of_lt_of_le (Nat.lt_add_of_pos_right hw) hab)
      have hpb : pair_batch cfg table =
          some ((x :: xs).map (fun k => ⟨cfg.tpid, k⟩)) := by
        unfold pair_batch
        simp only [hk]
        rw [hout, hL]
      have hnoconf : ∀ r ∈ (x :: xs).map (fun k => (⟨cfg.tpid, k⟩ : CandleRow)),
          key_conflict table r = false := by
        intro r hr
        rcases List.mem_map.mp hr with ⟨k, hkmem, rfl⟩
        unfold key_conflict
        rw [List.any_eq_false]
        intro t ht hcontra
        rw [Bool.and_eq_true, beq_iff_eq, beq_iff_eq] at hcontra
        have hlt := hlow t ht hcontra.1
        have hge : resume_point (pair_closes table cfg.tpid) cfg.initial_ms ≤ k.openTime :=
          (hLmem k hkmem).2
        have hoeq : t.bar.openTime = k.openTime := hcontra.2
        omega
      have hbpw : ((x :: xs).map (fun k => (⟨cfg.tpid, k⟩ : CandleRow))).Pairwise
          (fun r s' => ¬(r.trading_pair_id = s'.trading_pair_id ∧
            r.bar.openTime = s'.bar.openTime)) := by
        rw [List.pairwise_map]
        exact hLlt.imp (fun hab hc => absurd hc.2 (Nat.ne_of_lt hab))
      have hcopy : copy_rows table ((x :: xs).map (fun k => ⟨cfg.tpid, k⟩)) =
          Except.ok (table ++ (x :: xs).map (fun k => ⟨cfg.tpid, k⟩)) :=
        copy_rows_ok_of_no_conflict _ table hnoconf hbpw
      have h1 : process_one cfg table = table ++ (x :: xs).map (fun k => ⟨cfg.tpid, k⟩) := by
        unfold process_one
        rw [if_neg hst, hpb]
        show (if ((x :: xs).map (fun k => (⟨cfg.tpid, k⟩ : CandleRow))).isEmpty = true
            then table
            else (copy_import_candlestick_data table ((x :: xs).map (fun k => ⟨cfg.tpid, k⟩))).1) =
          table ++ (x :: xs).map (fun k => ⟨cfg.tpid, k⟩)
        rw [if_neg (fun hcc => Bool.noConfusion hcc)]
        unfold copy_import_candlestick_data
        rw [hcopy]
      rw [h1]
      have hLne : (x :: xs) ≠ [] := List.cons_ne_nil x xs
      have hlast? : (x :: xs).getLast? = some ((x :: xs).getLast hLne) :=
        List.getLast?_eq_getLast _ _
      have hlast_mem : (x :: xs).getLast hLne ∈ x :: xs := mem_of_getLast? hlast?
      have hub : ∀ k ∈ x :: xs, k.openTime ≤ ((x :: xs).getLast hLne).openTime :=
        pairwise_le_getLast hLlt hlast?
      have hclosesEq : pair_closes (table ++ (x :: xs).map (fun k => ⟨cfg.tpid, k⟩)) cfg.tpid =
          pair_closes table cfg.tpid ++ (x :: xs).map (fun k => k.closeTime) := by
        rw [pair_closes_append, pair_closes_map]
      have hub2 : ∀ c ∈ pair_closes table cfg.tpid ++ (x :: xs).map (fun k => k.closeTime),
          c ≤ ((x :: xs).getLast hLne).closeTime := by
        intro c hc
        have hlcl := hclose _ (hLmem _ hlast_mem).1
        have hlop := (hLmem _ hlast_mem).2
        rcases List.mem_append.mp hc with hc1 | hc2
        · have := hcl1 c hc1
          omega
        · rcases List.mem_map.mp hc2 with ⟨k, hkm, rfl⟩
          have hkcl := hclose k (hLmem k hkm).1
          have hkub := hub k hkm
          omega
      have hmem2 : ((x :: xs).getLast hLne).closeTime ∈
          pair_closes table cfg.tpid ++ (x :: xs).map (fun k => k.closeTime) :=
        List.mem_append.mpr (Or.inr (List.mem_map_of_mem _ hlast_mem))
      have hM2 : (pair_closes table cfg.tpid ++
          (x :: xs).map (fun k => k.closeTime)).foldr max 0 =
          ((x :: xs).getLast hLne).closeTime :=
        le_antisymm (foldr_max_le hub2) (le_foldr_max hmem2)
      have hlastpos : 0 < ((x :: xs).getLast hLne).openTime := hopen _ (hLmem _ hlast_mem).1
      have hlastcl : ((x :: xs).getLast hLne).closeTime =
          ((x :: xs).getLast hLne).openTime + cfg.w - 1 := hclose _ (hLmem _ hlast_mem).1
      have hresume2 :
          resume_point (pair_closes (table ++ (x :: xs).map (fun k => ⟨cfg.tpid, k⟩)) cfg.tpid)
            cfg.initial_ms = ((x :: xs).getLast hLne).openTime + cfg.w := by
        rw [hclosesEq]
        have hne2 : pair_closes table cfg.tpid ++ (x :: xs).map (fun k => k.closeTime) ≠ [] := by
          intro hcc
          rcases List.append_eq_nil.mp hcc with ⟨-, hmapnil⟩
          cases hmapnil
        have hM2ne : (pair_closes table cfg.tpid ++
            (x :: xs).map (fun k => k.closeTime)).foldr max 0 ≠ 0 := by
          rw [hM2]
          omega
        rw [resume_point_eq_max_add_one hne2 hM2ne, hM2]
        omega
      have hfil2 : cfg.upstream.filter (fun k =>
          decide (((x :: xs).getLast hLne).openTime + cfg.w ≤ k.openTime)) = [] := by
        rw [List.filter_eq_nil_iff]
        intro u hu hdec
        have hle := of_decide_eq_true hdec
        by_cases huL : resume_point (pair_closes table cfg.tpid) cfg.initial_ms ≤ u.openTime
        · have huMem : u ∈ x :: xs := by
            rw [← hL]
            exact List.mem_filter.mpr ⟨hu, decide_eq_true huL⟩
          have := hub u huMem
          omega
        · have h1' : u.openTime < resume_point (pair_closes table cfg.tpid) cfg.initial_ms :=
            Nat.lt_of_not_le huL
          have h2' := (hLmem _ hlast_mem).2
          omega
      have hfetch2 : fetchSource cfg.upstream
          (((x :: xs).getLast hLne).openTime + cfg.w) = [] := by
        unfold fetchSource
        rw [hfil2]
        rfl
      rcases hfuel with ⟨n, hfn⟩
      have hk2 : get_klines (fetchSource cfg.upstream) cfg.w
          (((x :: xs).getLast hLne).openTime + cfg.w) cfg.fuel =
          some ⟨[], ((x :: xs).getLast hLne).openTime + cfg.w + cfg.w, 1⟩ := by
        rw [hfn]
        exact get_klines_first_page_empty _ _ _ n hfetch2
      have hpb2 : pair_batch cfg (table ++ (x :: xs).map (fun k => ⟨cfg.tpid, k⟩)) =
          some [] := by
        unfold pair_batch
        rw [hresume2]
        simp only [hk2]
        rfl
      unfold process_one
      rw [if_neg hst, hpb2]
      rfl

/-- C6 (witness): the grid hypotheses applied to the concrete pair
configuration `cfg1` (two 1m bars) from an empty store: the second run
changes nothing. -/
theorem c6_idempotent_resume_witness :
    process_one cfg1 (process_one cfg1 []) = process_one cfg1 [] :=
  c6_idempotent_resume cfg1 [] (by decide) (by decide) (by decide) (by decide)
    (fun r hr => absurd hr (List.not_mem_nil r))

end CryptoBot
